import Mathlib

/-!
Shallow embedding of the retail-sales dashboard (`app.py`).

Conventions of the embedding:
* Python floats are modelled as exact rationals (`ℚ`); Python ints as `ℤ`/`ℕ`.
* `round(x, 2)` is modelled as exact round-half-to-even at two decimals.
* A pandas DataFrame of product rows is modelled as a `List Row` (row order =
  index order); the Mongo products collection is likewise a `List Row` in
  natural (insertion) order, and the users collection a `List Account`.
* Stateful Mongo operations become functions from the pre-state to the
  post-state (paired with the source's return value where it has one).
* Fallible code (a Python exception, e.g. `int()` on a non-numeric string)
  is modelled with `Option`.
The connected-database case is modelled; the early-return branches taken when
`get_db_collections` yields no connection do not touch any store.
-/

/-- Floor of a rational, via flooring integer division (denominators are positive). -/
def floorQ (q : ℚ) : ℤ := q.num.fdiv q.den

/-- Round a rational to the nearest integer, ties to even: the model of
Python's built-in `round` to zero decimals. -/
def roundHalfEven (q : ℚ) : ℤ :=
  let f := floorQ q
  let r := q - (f : ℚ)
  if r < 1 / 2 then f
  else if 1 / 2 < r then f + 1
  else if f % 2 = 0 then f else f + 1

/-- Model of Python's `round(x, 2)`. -/
def round2 (q : ℚ) : ℚ := (roundHalfEven (q * 100) : ℚ) / 100

/-- A product row, with the fixed column structure of the app's DataFrame and
of the documents in the Mongo products collection. -/
structure Row where
  Product_ID : String
  Product_Name : String
  Category : String
  Price : ℚ
  Rating : ℚ
  Sales_Volume : ℤ
  Stock : ℤ
  Discount : ℤ
  Revenue : ℚ
  Recommendation_Score : ℚ
deriving DecidableEq

/-- Model of `df['Sales_Volume'].max()` (the source only evaluates it on
non-empty frames; the empty case is given an arbitrary value). -/
def maxSales : List Row → ℤ
  | [] => 0
  | r :: rs => rs.foldl (fun m x => max m x.Sales_Volume) r.Sales_Volume

/-- The Revenue formula: `round(price * sales * (1 - discount/100), 2)`. -/
def revenueOf (price : ℚ) (sales discount : ℤ) : ℚ :=
  round2 (price * (sales : ℚ) * (1 - (discount : ℚ) / 100))

/-- The Recommendation_Score formula:
`round(rating*0.4 + (sales/maxSales)*5*0.3 + (discount/25)*5*0.3, 2)`. -/
def recScoreOf (rating : ℚ) (sales discount maxS : ℤ) : ℚ :=
  round2 (rating * 0.4 + ((sales : ℚ) / (maxS : ℚ)) * 5 * 0.3
    + ((discount : ℚ) / 25) * 5 * 0.3)

/-! ### Product_ID generation (admin add flow)

Models
`current_ids = [int(pid.split("_")[1]) for pid in df['Product_ID'] if isinstance(pid, str) and "_" in pid]`,
`next_id = max(current_ids) + 1 if current_ids else 1`, `new_id = f"Product_\x7bnext_id\x7d"`.
All Product_IDs are strings in the model, so the `isinstance` test always passes.
-/

/-- Model of Python's `s.split("_")` on the underlying character list. -/
def splitU : List Char → List (List Char)
  | [] => [[]]
  | c :: cs =>
    if c = '_' then [] :: splitU cs
    else
      match splitU cs with
      | [] => [[c]]
      | g :: gs => (c :: g) :: gs

/-- Parse a non-empty all-digit character list as a natural number, the way
`int` reads an unsigned decimal numeral. -/
def parseDigits (cs : List Char) : Option ℕ :=
  if cs = [] then none
  else if cs.all (fun c => c.isDigit) then
    some (cs.foldl (fun a c => a * 10 + (c.toNat - 48)) 0)
  else none

/-- Model of Python's `int(s)` on a split segment: optional sign followed by
decimal digits; anything else raises `ValueError`, modelled as `none`.
(Surrounding whitespace acceptance is not modelled; split segments carry no
digit-grouping underscores.) -/
def parsePyInt (cs : List Char) : Option ℤ :=
  match cs with
  | [] => none
  | c :: rest =>
    if c = '-' then (parseDigits rest).map (fun k => -(Int.ofNat k))
    else if c = '+' then (parseDigits rest).map (fun k => Int.ofNat k)
    else (parseDigits (c :: rest)).map (fun k => Int.ofNat k)

/-- Model of `int(pid.split("_")[1])`. -/
def suffixValue (s : String) : Option ℤ :=
  match splitU s.data with
  | _ :: seg :: _ => parsePyInt seg
  | _ => none

/-- The comprehension collecting the numeric suffixes of the IDs that contain
an underscore; `none` when any `int(...)` conversion raises. -/
def collectSuffixes : List String → Option (List ℤ)
  | [] => some []
  | s :: rest =>
    if '_' ∈ s.data then
      match suffixValue s, collectSuffixes rest with
      | some v, some vs => some (v :: vs)
      | _, _ => none
    else collectSuffixes rest

/-- Model of Python's `max` on a non-empty list (the `[]` case is unused). -/
def maxList : List ℤ → ℤ
  | [] => 0
  | v :: vs => vs.foldl max v

/-- Decimal digit characters of a positive natural, most significant first,
with structural (fuel) recursion so that it reduces by `rfl`/`decide`. -/
def natCharsAux : ℕ → ℕ → List Char
  | 0, _ => []
  | _ + 1, 0 => []
  | fuel + 1, n + 1 =>
    natCharsAux fuel ((n + 1) / 10) ++ [Char.ofNat (48 + (n + 1) % 10)]

/-- Decimal rendering of a natural number, as `str` produces it. -/
def natChars (n : ℕ) : List Char := if n = 0 then ['0'] else natCharsAux n n

/-- Model of Python's `str` on an int (as used by the f-string). -/
def intStr (n : ℤ) : String :=
  if n < 0 then String.mk ('-' :: natChars n.natAbs) else String.mk (natChars n.toNat)

/-- The generated Product_ID for the admin add flow: `Product_` followed by
one plus the maximum existing numeric suffix, or `Product_1` when no
underscore-bearing ID exists; `none` when a suffix fails to parse. -/
def nextProductId (ids : List String) : Option String :=
  match collectSuffixes ids with
  | none => none
  | some vals =>
    let next := if vals = [] then 1 else maxList vals + 1
    some ("Product_" ++ intStr next)

/-! ### Admin add / edit / delete flows (`show_manage_products`) -/

/-- The raw form fields of the add/edit forms. -/
structure ProductInput where
  name : String
  category : String
  price : ℚ
  rating : ℚ
  sales : ℤ
  stock : ℤ
  discount : ℤ
deriving DecidableEq

/-- The admin add flow on the session DataFrame: validates name/category,
generates the ID, computes the derived fields (normalising the score against
the pre-insert maximum Sales_Volume), and appends the row. Returns the new
DataFrame together with the row that was written (the same dict is also
upserted to Mongo). `none` models the rejected/raising branches. -/
def addProduct (df : List Row) (inp : ProductInput) : Option (List Row × Row) :=
  if inp.name = "" ∨ inp.category = "" then none
  else
    match nextProductId (df.map (fun r => r.Product_ID)) with
    | none => none
    | some newId =>
      let newRow : Row :=
        { Product_ID := newId
          Product_Name := inp.name
          Category := inp.category
          Price := inp.price
          Rating := inp.rating
          Sales_Volume := inp.sales
          Stock := inp.stock
          Discount := inp.discount
          Revenue := revenueOf inp.price inp.sales inp.discount
          Recommendation_Score := recScoreOf inp.rating inp.sales inp.discount (maxSales df) }
      some (df ++ [newRow], newRow)

/-- The admin edit flow: every row whose Product_ID matches the selected `pid`
(the `.loc` mask) receives the submitted values, with Revenue and
Recommendation_Score recomputed from them — the score normalised against the
pre-edit DataFrame's maximum Sales_Volume. -/
def editProduct (df : List Row) (pid : String) (inp : ProductInput) : List Row :=
  let newRevenue := revenueOf inp.price inp.sales inp.discount
  let newRec := recScoreOf inp.rating inp.sales inp.discount (maxSales df)
  df.map (fun r =>
    if r.Product_ID = pid then
      { Product_ID := pid
        Product_Name := inp.name
        Category := inp.category
        Price := inp.price
        Rating := inp.rating
        Sales_Volume := inp.sales
        Stock := inp.stock
        Discount := inp.discount
        Revenue := newRevenue
        Recommendation_Score := newRec }
    else r)

/-! ### Mongo catalog store operations -/

/-- `load_products_from_mongo`: the full contents of the products collection
in natural order (`listAll`). -/
def load_products_from_mongo (store : List Row) : List Row := store

/-- The `coll.delete_many(\x7b\x7d)` phase of `push_local_to_mongo`. -/
def pushDeletePhase (_store : List Row) : List Row := []

/-- `push_local_to_mongo` run to completion: delete everything, then
`insert_many` the DataFrame's records when it is non-empty. -/
def push_local_to_mongo (store df : List Row) : List Row :=
  if df = [] then pushDeletePhase store else pushDeletePhase store ++ df

/-- The store state when `push_local_to_mongo` is interrupted (crash or
failure) between the delete phase and the insert phase. -/
def pushInterrupted (store _df : List Row) : List Row := pushDeletePhase store

/-- `upsert_product_to_mongo`: `update_one` with filter on Product_ID,
`$set` of every field, `upsert=True` — the first document with the same
Product_ID is overwritten, and when none exists the row is inserted. -/
def upsert_product_to_mongo : List Row → Row → List Row
  | [], r => [r]
  | x :: xs, r =>
    if x.Product_ID = r.Product_ID then r :: xs
    else x :: upsert_product_to_mongo xs r

/-- `delete_product_from_mongo`: `delete_one` with filter on Product_ID —
removes the first matching document; the Bool is the source's return value
`res.deleted_count > 0`, paired here with the post-state. -/
def delete_product_from_mongo : List Row → String → Bool × List Row
  | [], _ => (false, [])
  | x :: xs, pid =>
    if x.Product_ID = pid then (true, xs)
    else
      let res := delete_product_from_mongo xs pid
      (res.1, x :: res.2)

/-- The admin delete flow: the session DataFrame drops the selected row
first, unconditionally; the Mongo delete runs afterwards and its result is
only used to pick the success/warning message (the local change is kept
either way). Returns (new session DataFrame, Mongo result, new store). -/
def deleteFlow (sessionDf store : List Row) (pid : String) :
    List Row × Bool × List Row :=
  let sessionAfter := sessionDf.filter (fun r => r.Product_ID ≠ pid)
  let res := delete_product_from_mongo store pid
  (sessionAfter, res.1, res.2)

/-! ### Password hashing (`hash_password`): SHA-256 hex digest of the UTF-8
encoded password, implemented over byte lists (naturals < 256) with 32-bit
words as naturals reduced mod 2^32. -/

def add32 (a b : ℕ) : ℕ := (a + b) % 4294967296

def rotr32 (n x : ℕ) : ℕ := ((x >>> n) ||| (x <<< (32 - n))) % 4294967296

def bigSigma0 (x : ℕ) : ℕ := rotr32 2 x ^^^ rotr32 13 x ^^^ rotr32 22 x

def bigSigma1 (x : ℕ) : ℕ := rotr32 6 x ^^^ rotr32 11 x ^^^ rotr32 25 x

def smallSigma0 (x : ℕ) : ℕ := rotr32 7 x ^^^ rotr32 18 x ^^^ (x >>> 3)

def smallSigma1 (x : ℕ) : ℕ := rotr32 17 x ^^^ rotr32 19 x ^^^ (x >>> 10)

def chFn (x y z : ℕ) : ℕ := (x &&& y) ^^^ ((x ^^^ 4294967295) &&& z)

def majFn (x y z : ℕ) : ℕ := (x &&& y) ^^^ (x &&& z) ^^^ (y &&& z)

structure Hash8 where
  a : ℕ
  b : ℕ
  c : ℕ
  d : ℕ
  e : ℕ
  f : ℕ
  g : ℕ
  h : ℕ
deriving DecidableEq

def shaInit : Hash8 :=
  ⟨1779033703, 3144134277, 1013904242, 2773480762,
   1359893119, 2600822924, 528734635, 1541459225⟩

def shaK : List ℕ :=
  [1116352408, 1899447441, 3049323471, 3921009573, 961987163,
   1508970993, 2453635748, 2870763221, 3624381080, 310598401,
   607225278, 1426881987, 1925078388, 2162078206, 2614888103,
   3248222580, 3835390401, 4022224774, 264347078, 604807628,
   770255983, 1249150122, 1555081692, 1996064986, 2554220882,
   2821834349, 2952996808, 3210313671, 3336571891, 3584528711,
   113926993, 338241895, 666307205, 773529912, 1294757372,
   1396182291, 1695183700, 1986661051, 2177026350, 2456956037,
   2730485921, 2820302411, 3259730800, 3345764771, 3516065817,
   3600352804, 4094571909, 275423344, 430227734, 506948616,
   659060556, 883997877, 958139571, 1322822218, 1537002063,
   1747873779, 1955562222, 2024104815, 2227730452, 2361852424,
   2428436474, 2756734187, 3204031479, 3329325298]

def bytesToWords : List ℕ → List ℕ
  | b0 :: b1 :: b2 :: b3 :: rest =>
    (((b0 * 256 + b1) * 256 + b2) * 256 + b3) :: bytesToWords rest
  | _ => []

def extendSchedule : List ℕ → ℕ → List ℕ
  | ws, 0 => ws
  | ws, k + 1 =>
    let l := ws.length
    let w := add32 (add32 (smallSigma1 (ws.getD (l - 2) 0)) (ws.getD (l - 7) 0))
      (add32 (smallSigma0 (ws.getD (l - 15) 0)) (ws.getD (l - 16) 0))
    extendSchedule (ws ++ [w]) k

def roundStep (st : Hash8) (kw : ℕ × ℕ) : Hash8 :=
  let t1 := add32 st.h (add32 (bigSigma1 st.e) (add32 (chFn st.e st.f st.g) (add32 kw.1 kw.2)))
  let t2 := add32 (bigSigma0 st.a) (majFn st.a st.b st.c)
  ⟨add32 t1 t2, st.a, st.b, st.c, add32 st.d t1, st.e, st.f, st.g⟩

def compressBlock (h : Hash8) (block : List ℕ) : Hash8 :=
  let ws := extendSchedule (bytesToWords block) 48
  let s := (shaK.zip ws).foldl roundStep h
  ⟨add32 h.a s.a, add32 h.b s.b, add32 h.c s.c, add32 h.d s.d,
   add32 h.e s.e, add32 h.f s.f, add32 h.g s.g, add32 h.h s.h⟩

def processBlocksAux : ℕ → Hash8 → List ℕ → Hash8
  | 0, h, _ => h
  | fuel + 1, h, bytes =>
    if 64 ≤ bytes.length then
      processBlocksAux fuel (compressBlock h (bytes.take 64)) (bytes.drop 64)
    else h

def processBlocks (h : Hash8) (bytes : List ℕ) : Hash8 :=
  processBlocksAux (bytes.length + 1) h bytes

def lenBytes (bitLen : ℕ) : List ℕ :=
  [bitLen / 72057594037927936 % 256, bitLen / 281474976710656 % 256,
   bitLen / 1099511627776 % 256, bitLen / 4294967296 % 256,
   bitLen / 16777216 % 256, bitLen / 65536 % 256,
   bitLen / 256 % 256, bitLen % 256]

def padMessage (bytes : List ℕ) : List ℕ :=
  bytes ++ [128] ++ List.replicate ((119 - bytes.length % 64) % 64) 0
    ++ lenBytes (bytes.length * 8)

def hexChar (d : ℕ) : Char := Char.ofNat (if d < 10 then 48 + d else 87 + d)

def wordHexChars (w : ℕ) : List Char :=
  [hexChar (w / 268435456 % 16), hexChar (w / 16777216 % 16),
   hexChar (w / 1048576 % 16), hexChar (w / 65536 % 16),
   hexChar (w / 4096 % 16), hexChar (w / 256 % 16),
   hexChar (w / 16 % 16), hexChar (w % 16)]

def hashChars (h : Hash8) : List Char :=
  wordHexChars h.a ++ wordHexChars h.b ++ wordHexChars h.c ++ wordHexChars h.d
    ++ wordHexChars h.e ++ wordHexChars h.f ++ wordHexChars h.g ++ wordHexChars h.h

def sha256Hex (bytes : List ℕ) : String :=
  String.mk (hashChars (processBlocks shaInit (padMessage bytes)))

def charUtf8 (c : Char) : List ℕ :=
  let n := c.toNat
  if n < 128 then [n]
  else if n < 2048 then [192 + n / 64, 128 + n % 64]
  else if n < 65536 then [224 + n / 4096, 128 + n / 64 % 64, 128 + n % 64]
  else [240 + n / 262144, 128 + n / 4096 % 64, 128 + n / 64 % 64, 128 + n % 64]

def utf8Bytes (s : String) : List ℕ := (s.data.map charUtf8).flatten

def hash_password (password : String) : String := sha256Hex (utf8Bytes password)

/-! ### User functions (credential store) -/

/-- A document of the users collection. -/
structure Account where
  username : String
  password : String
  role : String
  full_name : String
  created_at : ℕ
deriving DecidableEq

/-- The record `authenticate_user` hands back to the login form. -/
structure AuthRecord where
  username : String
  role : String
  full_name : String
deriving DecidableEq

/-- `register_user`: rejects when `find_one` on the username matches an
existing document, otherwise inserts the new account with the hashed
password. Returns the source's `(ok, message)` pair and the post-state. -/
def register_user (users : List Account) (username password full_name role : String)
    (now : ℕ) : (Bool × String) × List Account :=
  if users.any (fun a => a.username = username) then
    ((false, "Username already exists"), users)
  else
    ((true, "Registered"),
      users ++ [⟨username, hash_password password, role, full_name, now⟩])

/-- `authenticate_user`: `find_one` on username plus hashed password; on a
match, the account record (the source's `full_name` default never fires in
this schema, where every document carries the field). -/
def authenticate_user (users : List Account) (username password : String) :
    Option AuthRecord :=
  (users.find? (fun a => a.username == username && a.password == hash_password password)).map
    (fun a => ⟨a.username, a.role, a.full_name⟩)

/-! ### Concrete sample data used by witnesses and counterexamples -/

/-- A seeded catalog row; its derived fields are consistent with a catalog
whose maximum Sales_Volume is its own (100). -/
def seedRow : Row :=
  ⟨"Product_1", "Seed Item", "Electronics", 100, 4, 100, 10, 0, 10000, 31 / 10⟩

/-- An add-form submission whose Sales_Volume (200) exceeds the seeded
catalog's maximum (100). -/
def bigInput : ProductInput := ⟨"New Item", "Toys", 50, 4, 200, 5, 0⟩

/-- The row the add flow writes for `bigInput` on the catalog `[seedRow]`:
its score is normalised against the pre-insert maximum 100. -/
def bigRow : Row := ⟨"Product_2", "New Item", "Toys", 50, 4, 200, 5, 0, 10000, 23 / 5⟩

/-! ### Catalog store lemmas and claim theorems -/

/-- Deleting an absent Product_ID returns `false` and leaves the collection
untouched. -/
theorem delete_not_found (s : List Row) (pid : String)
    (h : pid ∉ s.map (fun r => r.Product_ID)) :
    delete_product_from_mongo s pid = (false, s) := by
  induction s with
  | nil => rfl
  | cons x xs ih =>
    simp only [List.map_cons, List.mem_cons, not_or] at h
    obtain ⟨h1, h2⟩ := h
    simp only [delete_product_from_mongo]
    rw [if_neg (fun he => h1 he.symm), ih h2]

/-- C4 (counterexample): `push_local_to_mongo` interrupted between its
delete phase and its insert phase leaves the store empty — a state that is
neither the original row set `[seedRow]` nor the given row set `[bigRow]`,
so the operation is not atomic in the claimed sense. -/
theorem push_interrupted_neither_cex :
    pushInterrupted [seedRow] [bigRow] ≠ [seedRow] ∧
    pushInterrupted [seedRow] [bigRow] ≠ [bigRow] := by
  decide

/-- C4 (amended): `push_local_to_mongo` run to completion leaves the store
holding exactly the given rows; but it proceeds in two phases, and the state
after the delete phase alone (an interruption point) is the empty store. -/
theorem push_local_to_mongo_replaces (store df : List Row) :
    load_products_from_mongo (push_local_to_mongo store df) = df ∧
    pushInterrupted store df = [] := by
  refine ⟨?_, rfl⟩
  unfold load_products_from_mongo push_local_to_mongo pushDeletePhase
  split <;> simp_all

/-- C10: in the admin delete flow the session DataFrame drops the selected
Product_ID no matter what the store holds (its new value does not depend on
the store at all), while an absent Product_ID leaves the store unchanged with
a `false` result — so a locally present, store-absent row leaves the two
copies diverged. -/
theorem delete_flow_local_unconditional (sess store store' : List Row) (pid : String) :
    (deleteFlow sess store pid).1 = (deleteFlow sess store' pid).1 ∧
    (∀ x ∈ (deleteFlow sess store pid).1, x.Product_ID ≠ pid) ∧
    (pid ∉ store.map (fun r => r.Product_ID) →
      (deleteFlow sess store pid).2.1 = false ∧
      (deleteFlow sess store pid).2.2 = store) := by
  refine ⟨rfl, ?_, ?_⟩
  · intro x hx
    simp only [deleteFlow, List.mem_filter, decide_not] at hx
    simpa using hx.2
  · intro h
    simp [deleteFlow, delete_not_found store pid h]

/-- Witness for C10 at a concrete input: the session catalog `[seedRow]`
drops `Product_1` identically whether the store is empty or holds `bigRow`,
and the empty store reports `false` and stays empty. -/
theorem delete_flow_local_unconditional_witness :
    (deleteFlow [seedRow] [] "Product_1").1 = (deleteFlow [seedRow] [bigRow] "Product_1").1 ∧
    (∀ x ∈ (deleteFlow [seedRow] [] "Product_1").1, x.Product_ID ≠ "Product_1") ∧
    ((deleteFlow [seedRow] [] "Product_1").2.1 = false ∧
      (deleteFlow [seedRow] [] "Product_1").2.2 = []) :=
  ⟨(delete_flow_local_unconditional [seedRow] [] [bigRow] "Product_1").1,
   (delete_flow_local_unconditional [seedRow] [] [bigRow] "Product_1").2.1,
   (delete_flow_local_unconditional [seedRow] [] [bigRow] "Product_1").2.2 (by decide)⟩

/-! ### Derived metrics: C1, C2, C3 -/

/-- C1: every row created by the admin add flow or overwritten by the admin
edit flow stores `Revenue = round(Price * Sales_Volume * (1 - Discount/100), 2)`
computed from that row's own stored Price, Sales_Volume and Discount. -/
theorem revenue_matches_formula (df : List Row) (inp : ProductInput) (pid : String)
    (df' : List Row) (r : Row) :
    (addProduct df inp = some (df', r) →
      r ∈ df' ∧
      r.Revenue = round2 (r.Price * (r.Sales_Volume : ℚ) * (1 - (r.Discount : ℚ) / 100))) ∧
    (∀ x ∈ editProduct df pid inp, x.Product_ID = pid →
      x.Revenue = round2 (x.Price * (x.Sales_Volume : ℚ) * (1 - (x.Discount : ℚ) / 100))) := by
  constructor
  · intro h
    unfold addProduct at h
    split at h
    · exact absurd h (by simp)
    · rcases hm : nextProductId (df.map (fun r => r.Product_ID)) with _ | newId <;> rw [hm] at h
      · exact absurd h (by simp)
      · simp only [Option.some.injEq, Prod.mk.injEq] at h
        obtain ⟨hdf, hr⟩ := h
        subst hdf
        constructor
        · rw [← hr]; exact List.mem_append_right _ (List.mem_singleton.mpr rfl)
        · rw [← hr]; rfl
  · intro x hx hpid
    unfold editProduct at hx
    simp only [List.mem_map] at hx
    obtain ⟨y, _, hxeq⟩ := hx
    by_cases hy : y.Product_ID = pid
    · rw [if_pos hy] at hxeq
      rw [← hxeq]; rfl
    · rw [if_neg hy] at hxeq
      exact absurd (hxeq ▸ hpid) hy

unseal Rat.mul Rat.add Rat.inv Rat.sub Rat.ofScientific in
/-- Witness for C1: adding `bigInput` to the catalog `[seedRow]` writes
`bigRow`, whose stored Revenue satisfies the formula. -/
theorem revenue_matches_formula_witness :
    addProduct [seedRow] bigInput = some ([seedRow, bigRow], bigRow) ∧
    (bigRow ∈ [seedRow, bigRow] ∧
      bigRow.Revenue
        = round2 (bigRow.Price * (bigRow.Sales_Volume : ℚ) * (1 - (bigRow.Discount : ℚ) / 100))) :=
  ⟨by decide,
   (revenue_matches_formula [seedRow] bigInput "x" [seedRow, bigRow] bigRow).1 (by decide)⟩

unseal Rat.mul Rat.add Rat.inv Rat.sub Rat.ofScientific in
/-- C2 (counterexample): the add flow normalises the score against the
pre-write maximum Sales_Volume. Adding a 200-sales row to a catalog whose
maximum is 100 stores score `round(1.6 + (200/100)*1.5, 2) = 4.6`, while the
claimed snapshot-after-the-write maximum (200) would give
`round(1.6 + 1.5, 2) = 3.1`. -/
theorem recscore_post_write_max_cex :
    addProduct [seedRow] bigInput = some ([seedRow, bigRow], bigRow) ∧
    bigRow.Recommendation_Score ≠
      round2 (bigRow.Rating * 0.4
        + ((bigRow.Sales_Volume : ℚ) / (maxSales [seedRow, bigRow] : ℚ)) * 5 * 0.3
        + ((bigRow.Discount : ℚ) / 25) * 5 * 0.3) := by
  exact ⟨by decide, by decide⟩

/-- C2 (amended): every row created via admin add or modified via admin edit
stores `Recommendation_Score = round(Rating*0.4 + (Sales_Volume/maxSalesVolume)*5*0.3
+ (Discount/25)*5*0.3, 2)` where `maxSalesVolume` is the maximum Sales_Volume of
the catalog snapshot before the write (the DataFrame handed to the handler). -/
theorem recscore_matches_formula_pre_max (df : List Row) (inp : ProductInput)
    (pid : String) (df' : List Row) (r : Row) :
    (addProduct df inp = some (df', r) →
      r ∈ df' ∧
      r.Recommendation_Score = round2 (r.Rating * 0.4
        + ((r.Sales_Volume : ℚ) / (maxSales df : ℚ)) * 5 * 0.3
        + ((r.Discount : ℚ) / 25) * 5 * 0.3)) ∧
    (∀ x ∈ editProduct df pid inp, x.Product_ID = pid →
      x.Recommendation_Score = round2 (x.Rating * 0.4
        + ((x.Sales_Volume : ℚ) / (maxSales df : ℚ)) * 5 * 0.3
        + ((x.Discount : ℚ) / 25) * 5 * 0.3)) := by
  constructor
  · intro h
    unfold addProduct at h
    split at h
    · exact absurd h (by simp)
    · rcases hm : nextProductId (df.map (fun r => r.Product_ID)) with _ | newId <;> rw [hm] at h
      · exact absurd h (by simp)
      · simp only [Option.some.injEq, Prod.mk.injEq] at h
        obtain ⟨hdf, hr⟩ := h
        subst hdf
        constructor
        · rw [← hr]; exact List.mem_append_right _ (List.mem_singleton.mpr rfl)
        · rw [← hr]; rfl
  · intro x hx hpid
    unfold editProduct at hx
    simp only [List.mem_map] at hx
    obtain ⟨y, _, hxeq⟩ := hx
    by_cases hy : y.Product_ID = pid
    · rw [if_pos hy] at hxeq
      rw [← hxeq]; rfl
    · rw [if_neg hy] at hxeq
      exact absurd (hxeq ▸ hpid) hy

unseal Rat.mul Rat.add Rat.inv Rat.sub Rat.ofScientific in
/-- Witness for the amended C2 at the same concrete add. -/
theorem recscore_matches_formula_pre_max_witness :
    addProduct [seedRow] bigInput = some ([seedRow, bigRow], bigRow) ∧
    (bigRow ∈ [seedRow, bigRow] ∧
      bigRow.Recommendation_Score = round2 (bigRow.Rating * 0.4
        + ((bigRow.Sales_Volume : ℚ) / (maxSales [seedRow] : ℚ)) * 5 * 0.3
        + ((bigRow.Discount : ℚ) / 25) * 5 * 0.3)) :=
  ⟨by decide,
   (recscore_matches_formula_pre_max [seedRow] bigInput "x" [seedRow, bigRow] bigRow).1
     (by decide)⟩

unseal Rat.mul Rat.add Rat.inv Rat.sub Rat.ofScientific in
/-- C3 (counterexample): from the consistent one-row catalog `[seedRow]`
(score normalised against its own maximum 100), adding `bigRow` raises the
catalog maximum to 200, yet `seedRow` keeps its old score 3.1, which no
longer matches the formula under the new maximum (2.35): the other rows are
not recomputed. -/
theorem recscore_stale_after_max_change_cex :
    seedRow.Recommendation_Score
      = recScoreOf seedRow.Rating seedRow.Sales_Volume seedRow.Discount (maxSales [seedRow]) ∧
    addProduct [seedRow] bigInput = some ([seedRow, bigRow], bigRow) ∧
    maxSales [seedRow, bigRow] ≠ maxSales [seedRow] ∧
    seedRow ∈ [seedRow, bigRow] ∧
    seedRow.Recommendation_Score
      ≠ recScoreOf seedRow.Rating seedRow.Sales_Volume seedRow.Discount
          (maxSales [seedRow, bigRow]) := by
  exact ⟨by decide, by decide, by decide, by decide, by decide⟩

/-- C3 (amended): a write recomputes only the written row's
Recommendation_Score (against the pre-write maximum); every other row is
carried into the post-write catalog entirely unchanged, score included, even
when the write changes the catalog's maximum Sales_Volume. -/
theorem write_keeps_other_rows (df : List Row) (inp : ProductInput) (pid : String)
    (df' : List Row) (r : Row) :
    (addProduct df inp = some (df', r) → df' = df ++ [r]) ∧
    (∀ x ∈ df, x.Product_ID ≠ pid → x ∈ editProduct df pid inp) := by
  constructor
  · intro h
    unfold addProduct at h
    split at h
    · exact absurd h (by simp)
    · rcases hm : nextProductId (df.map (fun r => r.Product_ID)) with _ | newId <;> rw [hm] at h
      · exact absurd h (by simp)
      · simp only [Option.some.injEq, Prod.mk.injEq] at h
        obtain ⟨hdf, hr⟩ := h
        rw [← hdf, hr]
  · intro x hx hpid
    unfold editProduct
    rw [List.mem_map]
    exact ⟨x, hx, by rw [if_neg hpid]⟩

unseal Rat.mul Rat.add Rat.inv Rat.sub Rat.ofScientific in
/-- Witness for the amended C3: the concrete add appends `bigRow` and keeps
`seedRow` untouched; a no-match edit keeps `seedRow` in place. -/
theorem write_keeps_other_rows_witness :
    addProduct [seedRow] bigInput = some ([seedRow, bigRow], bigRow) ∧
    [seedRow, bigRow] = [seedRow] ++ [bigRow] ∧
    seedRow ∈ editProduct [seedRow] "zzz" bigInput :=
  ⟨by decide,
   (write_keeps_other_rows [seedRow] bigInput "zzz" [seedRow, bigRow] bigRow).1 (by decide),
   (write_keeps_other_rows [seedRow] bigInput "zzz" [seedRow, bigRow] bigRow).2
     seedRow (List.mem_singleton.mpr rfl) (by decide)⟩

/-! ### Store key semantics: C5, C6 -/

/-- C5: over any catalog state whose Product_IDs are distinct (the data
model's unique-key invariant), upserting `r` and listing the collection
yields exactly one row carrying `r`'s Product_ID — with exactly `r`'s field
values — while the rows filed under every other Product_ID are untouched. -/
theorem upsert_listAll_exactly_one (s : List Row) (r : Row)
    (hnd : (s.map (fun x => x.Product_ID)).Nodup) :
    (load_products_from_mongo (upsert_product_to_mongo s r)).filter
        (fun x => x.Product_ID == r.Product_ID) = [r] ∧
    (∀ q, q ≠ r.Product_ID →
      (load_products_from_mongo (upsert_product_to_mongo s r)).filter
          (fun x => x.Product_ID == q)
        = (load_products_from_mongo s).filter (fun x => x.Product_ID == q)) := by
  simp only [load_products_from_mongo]
  induction s with
  | nil =>
    constructor
    · simp [upsert_product_to_mongo]
    · intro q hq
      have h2 : (r.Product_ID == q) = false := by simp [Ne.symm hq]
      simp [upsert_product_to_mongo, List.filter, h2]
  | cons x xs ih =>
    simp only [List.map_cons, List.nodup_cons] at hnd
    obtain ⟨hx, hxs⟩ := hnd
    obtain ⟨ih1, ih2⟩ := ih hxs
    by_cases hpid : x.Product_ID = r.Product_ID
    · simp only [upsert_product_to_mongo, if_pos hpid]
      constructor
      · have hnone : xs.filter (fun y => y.Product_ID == r.Product_ID) = [] := by
          rw [List.filter_eq_nil_iff]
          intro a ha hc
          exact hx (hpid ▸ (List.mem_map.mpr ⟨a, ha, (by simpa using hc)⟩))
        simp [List.filter, hnone]
      · intro q hq
        have h1 : (x.Product_ID == q) = false := by
          simp [hpid, Ne.symm hq]
        have h2 : (r.Product_ID == q) = false := by
          simp [Ne.symm hq]
        simp [List.filter, h1, h2]
    · simp only [upsert_product_to_mongo, if_neg hpid]
      constructor
      · have h1 : (x.Product_ID == r.Product_ID) = false := by simp [hpid]
        simp [List.filter, h1, ih1]
      · intro q hq
        by_cases hxq : x.Product_ID = q
        · simp [List.filter, hxq, ih2 q hq]
        · have h1 : (x.Product_ID == q) = false := by simp [hxq]
          simp [List.filter, h1, ih2 q hq]

/-- Witness for C5: upserting `bigRow` (a fresh Product_ID) into `[seedRow]`
leaves exactly one `Product_2` row, equal to `bigRow`, and the `Product_1`
rows unchanged. -/
theorem upsert_listAll_exactly_one_witness :
    (load_products_from_mongo (upsert_product_to_mongo [seedRow] bigRow)).filter
        (fun x => x.Product_ID == bigRow.Product_ID) = [bigRow] ∧
    (load_products_from_mongo (upsert_product_to_mongo [seedRow] bigRow)).filter
        (fun x => x.Product_ID == "Product_1")
      = (load_products_from_mongo [seedRow]).filter
          (fun x => x.Product_ID == "Product_1") :=
  ⟨(upsert_listAll_exactly_one [seedRow] bigRow (by decide)).1,
   (upsert_listAll_exactly_one [seedRow] bigRow (by decide)).2 "Product_1" (by decide)⟩

/-- Deleting a present Product_ID (under the unique-key invariant) reports
`true` and removes exactly the matching row. -/
theorem delete_found (s : List Row) (pid : String)
    (hnd : (s.map (fun x => x.Product_ID)).Nodup)
    (hmem : pid ∈ s.map (fun x => x.Product_ID)) :
    (delete_product_from_mongo s pid).1 = true ∧
    (delete_product_from_mongo s pid).2
      = s.filter (fun x => x.Product_ID != pid) := by
  induction s with
  | nil => simp at hmem
  | cons x xs ih =>
    simp only [List.map_cons, List.nodup_cons] at hnd
    obtain ⟨hx, hxs⟩ := hnd
    by_cases hp : x.Product_ID = pid
    · have h1 : (x.Product_ID != pid) = false := by simp [hp]
      have h2 : xs.filter (fun y => y.Product_ID != pid) = xs := by
        rw [List.filter_eq_self]
        intro a ha
        have : a.Product_ID ≠ pid := fun he =>
          hx (hp ▸ he ▸ List.mem_map.mpr ⟨a, ha, rfl⟩)
        simpa using this
      simp [delete_product_from_mongo, if_pos hp, List.filter, h1, h2]
    · have hmem' : pid ∈ xs.map (fun y => y.Product_ID) := by
        rcases List.mem_cons.mp hmem with h | h
        · exact absurd h.symm hp
        · exact h
      obtain ⟨ih1, ih2⟩ := ih hxs hmem'
      simp only [delete_product_from_mongo, if_neg hp]
      have h1 : (x.Product_ID != pid) = true := by simpa using hp
      refine ⟨ih1, ?_⟩
      simp [List.filter, h1, ih2]

/-- C6: under the unique-key invariant, deleting an absent Product_ID
returns `false` and leaves every catalog row exactly as it was; deleting a
present Product_ID returns `true` and removes precisely the matching row. -/
theorem delete_reports_membership (s : List Row) (pid : String)
    (hnd : (s.map (fun x => x.Product_ID)).Nodup) :
    (pid ∉ s.map (fun x => x.Product_ID) →
      delete_product_from_mongo s pid = (false, s)) ∧
    (pid ∈ s.map (fun x => x.Product_ID) →
      (delete_product_from_mongo s pid).1 = true ∧
      (delete_product_from_mongo s pid).2
        = s.filter (fun x => x.Product_ID != pid)) :=
  ⟨delete_not_found s pid, delete_found s pid hnd⟩

/-- Witness for C6: on the store `[seedRow]`, deleting the absent `nope`
returns `false` unchanged, and deleting `Product_1` returns `true` and
filters the row out. -/
theorem delete_reports_membership_witness :
    delete_product_from_mongo [seedRow] "nope" = (false, [seedRow]) ∧
    ((delete_product_from_mongo [seedRow] "Product_1").1 = true ∧
      (delete_product_from_mongo [seedRow] "Product_1").2
        = [seedRow].filter (fun x => x.Product_ID != "Product_1")) :=
  ⟨(delete_reports_membership [seedRow] "nope" (by decide)).1 (by decide),
   (delete_reports_membership [seedRow] "Product_1" (by decide)).2 (by decide)⟩

/-! ### Credential store: C7, C8 -/

/-- Sanity check of the SHA-256 model against the FIPS 180 test vector. -/
theorem hash_password_abc :
    hash_password "abc"
      = "ba7816bf8f01cfea414140de5dae2223b00361a396177a9cb410ff61f20015ad" := by
  decide

/-- A SHA-256 hex digest always has 64 characters. -/
theorem hash_password_length (s : String) : (hash_password s).length = 64 := by
  simp [hash_password, sha256Hex, String.length, hashChars, wordHexChars]

/-- A concrete registered account used by witnesses. -/
def aliceAccount : Account := ⟨"alice", hash_password "pw123456", "admin", "Alice A", 0⟩

/-- C7: registering a fresh username succeeds and stores the SHA-256 hash of
the password (64 hex characters — never the plaintext, for any password that
is not itself 64 characters long); a second registration under the same
username fails with the duplicate-username error and leaves the store
unchanged, so exactly one account exists for that username. -/
theorem register_duplicate_and_hash (users : List Account)
    (u p1 fn1 r1 : String) (t1 : ℕ) (p2 fn2 r2 : String) (t2 : ℕ)
    (h : u ∉ users.map (fun a => a.username)) :
    (register_user users u p1 fn1 r1 t1).1 = (true, "Registered") ∧
    (register_user (register_user users u p1 fn1 r1 t1).2 u p2 fn2 r2 t2).1
      = (false, "Username already exists") ∧
    (register_user (register_user users u p1 fn1 r1 t1).2 u p2 fn2 r2 t2).2
      = (register_user users u p1 fn1 r1 t1).2 ∧
    (register_user users u p1 fn1 r1 t1).2.filter (fun a => a.username == u)
      = [⟨u, hash_password p1, r1, fn1, t1⟩] ∧
    (hash_password p1).length = 64 ∧
    (p1.length ≠ 64 → hash_password p1 ≠ p1) := by
  have hany : users.any (fun a => a.username = u) = false := by
    rw [List.any_eq_false]
    intro a ha
    simpa using fun he => h (List.mem_map.mpr ⟨a, ha, he⟩)
  have hfil : users.filter (fun a => a.username == u) = [] := by
    rw [List.filter_eq_nil_iff]
    intro a ha
    simpa using fun he => h (List.mem_map.mpr ⟨a, ha, he⟩)
  have hreg1 : register_user users u p1 fn1 r1 t1
      = ((true, "Registered"), users ++ [⟨u, hash_password p1, r1, fn1, t1⟩]) := by
    simp [register_user, hany]
  have hmem2 : (⟨u, hash_password p1, r1, fn1, t1⟩ : Account)
      ∈ users ++ [⟨u, hash_password p1, r1, fn1, t1⟩] :=
    List.mem_append_right _ (by simp)
  have hany2 : (users ++ [(⟨u, hash_password p1, r1, fn1, t1⟩ : Account)]).any
      (fun a => a.username = u) = true :=
    List.any_eq_true.mpr ⟨(⟨u, hash_password p1, r1, fn1, t1⟩ : Account), hmem2, by simp⟩
  have hreg2 :
      register_user (users ++ [(⟨u, hash_password p1, r1, fn1, t1⟩ : Account)]) u p2 fn2 r2 t2
      = ((false, "Username already exists"),
          users ++ [(⟨u, hash_password p1, r1, fn1, t1⟩ : Account)]) := by
    simp [register_user, hany2]
  refine ⟨by rw [hreg1], by simp [hreg1, hreg2], by simp [hreg1, hreg2], ?_,
    hash_password_length p1, ?_⟩
  · rw [hreg1]
    show (users ++ [(⟨u, hash_password p1, r1, fn1, t1⟩ : Account)]).filter
        (fun a => a.username == u) = _
    rw [List.filter_append, hfil]
    simp
  · intro hne he
    exact hne (he ▸ hash_password_length p1)

/-- Witness for C7: registering `alice` twice on the empty store. -/
theorem register_duplicate_and_hash_witness :
    (register_user [] "alice" "pw123456" "Alice A" "user" 0).1 = (true, "Registered") ∧
    (register_user (register_user [] "alice" "pw123456" "Alice A" "user" 0).2
        "alice" "other" "A Two" "user" 1).1 = (false, "Username already exists") ∧
    (register_user (register_user [] "alice" "pw123456" "Alice A" "user" 0).2
        "alice" "other" "A Two" "user" 1).2
      = (register_user [] "alice" "pw123456" "Alice A" "user" 0).2 ∧
    (register_user [] "alice" "pw123456" "Alice A" "user" 0).2.filter
        (fun a => a.username == "alice")
      = [⟨"alice", hash_password "pw123456", "user", "Alice A", 0⟩] ∧
    (hash_password "pw123456").length = 64 ∧
    ("pw123456".length ≠ 64 → hash_password "pw123456" ≠ "pw123456") :=
  register_duplicate_and_hash [] "alice" "pw123456" "Alice A" "user" 0 "other" "A Two" "user" 1
    (by decide)

/-- C8: under distinct usernames, `authenticate_user` returns an account
record exactly when some stored account has the supplied username and its
stored hash equals the hash of the supplied password — and the record it
returns carries that account's username, role and full name; when every
account with the username has a different stored hash (wrong password), it
returns `none`. -/
theorem authenticate_matches (users : List Account) (u pw : String) (rec : AuthRecord)
    (hnd : (users.map (fun a => a.username)).Nodup) :
    (authenticate_user users u pw = some rec ↔
      ∃ a ∈ users, a.username = u ∧ a.password = hash_password pw ∧
        rec = ⟨a.username, a.role, a.full_name⟩) ∧
    ((∀ a ∈ users, a.username = u → a.password ≠ hash_password pw) →
      authenticate_user users u pw = none) := by
  constructor
  · constructor
    · intro hsome
      simp only [authenticate_user, Option.map_eq_some'] at hsome
      obtain ⟨a, hfind, hmap⟩ := hsome
      have hmem := List.mem_of_find?_eq_some hfind
      have hpred := List.find?_some hfind
      simp only [Bool.and_eq_true, beq_iff_eq] at hpred
      exact ⟨a, hmem, hpred.1, hpred.2, hmap.symm⟩
    · rintro ⟨a, ha, hau, hap, hrec⟩
      have hsome : (users.find? fun b => b.username == u && b.password == hash_password pw).isSome := by
        rw [List.find?_isSome]
        exact ⟨a, ha, by simp [hau, hap]⟩
      obtain ⟨b, hb⟩ := Option.isSome_iff_exists.mp hsome
      have hbmem := List.mem_of_find?_eq_some hb
      have hbpred := List.find?_some hb
      simp only [Bool.and_eq_true, beq_iff_eq] at hbpred
      have hab : a = b :=
        List.inj_on_of_nodup_map hnd ha hbmem (by rw [hau, hbpred.1])
      simp only [authenticate_user, hb, Option.map_some']
      rw [hrec, hab]
  · intro hall
    have : (users.find? fun b => b.username == u && b.password == hash_password pw) = none := by
      rw [List.find?_eq_none]
      intro a ha
      simp only [Bool.and_eq_true, beq_iff_eq, not_and]
      exact hall a ha
    simp [authenticate_user, this]

/-- Witness for C8 on the one-account store `[aliceAccount]`. -/
theorem authenticate_matches_witness :
    (authenticate_user [aliceAccount] "alice" "pw123456"
        = some ⟨"alice", "admin", "Alice A"⟩ ↔
      ∃ a ∈ [aliceAccount], a.username = "alice" ∧ a.password = hash_password "pw123456" ∧
        (⟨"alice", "admin", "Alice A"⟩ : AuthRecord) = ⟨a.username, a.role, a.full_name⟩) ∧
    ((∀ a ∈ [aliceAccount], a.username = "alice" → a.password ≠ hash_password "pw123456") →
      authenticate_user [aliceAccount] "alice" "pw123456" = none) :=
  authenticate_matches [aliceAccount] "alice" "pw123456" ⟨"alice", "admin", "Alice A"⟩
    (by decide)

/-! ### Product_ID generation: C9 -/

/-- Rendering zero digits with any fuel gives the empty list. -/
theorem natCharsAux_zero (fuel : ℕ) : natCharsAux fuel 0 = [] := by
  cases fuel <;> rfl

/-- Every character produced by the digit renderer is a decimal digit
character `Char.ofNat (48 + d)` with `d < 10`. -/
theorem natCharsAux_digits (fuel : ℕ) :
    ∀ n c, c ∈ natCharsAux fuel n → ∃ d, d < 10 ∧ c = Char.ofNat (48 + d) := by
  induction fuel with
  | zero =>
    intro n c hc
    simp [natCharsAux] at hc
  | succ f ih =>
    intro n c hc
    match n with
    | 0 => simp [natCharsAux] at hc
    | m + 1 =>
      simp only [natCharsAux, List.mem_append, List.mem_singleton] at hc
      rcases hc with h | h
      · exact ih _ c h
      · exact ⟨(m + 1) % 10, Nat.mod_lt _ (by norm_num), h⟩

/-- Facts about the decimal digit characters, by exhausting the ten cases. -/
theorem digitChar_facts (d : ℕ) (hd : d < 10) :
    (Char.ofNat (48 + d)).isDigit = true ∧ Char.ofNat (48 + d) ≠ '_' ∧
    Char.ofNat (48 + d) ≠ '-' ∧ Char.ofNat (48 + d) ≠ '+' ∧
    (Char.ofNat (48 + d)).toNat = 48 + d := by
  interval_cases d <;> exact (by decide)

/-- The digit-reading fold recovers the rendered number. -/
theorem natCharsAux_foldl (fuel : ℕ) :
    ∀ n a, 0 < n → n ≤ fuel →
      (natCharsAux fuel n).foldl (fun x c => x * 10 + (c.toNat - 48)) a
        = a * 10 ^ (natCharsAux fuel n).length + n := by
  induction fuel with
  | zero =>
    intro n a h1 h2
    omega
  | succ f ih =>
    intro n a h1 h2
    obtain ⟨m, rfl⟩ : ∃ m, n = m + 1 := ⟨n - 1, by omega⟩
    have hto := (digitChar_facts ((m + 1) % 10) (Nat.mod_lt _ (by norm_num))).2.2.2.2
    simp only [natCharsAux, List.foldl_append, List.foldl_cons, List.foldl_nil,
      List.length_append, List.length_cons, List.length_nil, hto]
    by_cases hq : (m + 1) / 10 = 0
    · rw [hq, natCharsAux_zero]
      simp only [List.foldl_nil, List.length_nil]
      omega
    · have hq1 : 0 < (m + 1) / 10 := Nat.pos_of_ne_zero hq
      have hq2 : (m + 1) / 10 ≤ f := by
        have := Nat.div_lt_self (show 0 < m + 1 by omega) (show 1 < 10 by norm_num)
        omega
      rw [ih _ a hq1 hq2]
      have hdm : (m + 1) / 10 * 10 + (m + 1) % 10 = m + 1 := by omega
      set L := (natCharsAux f ((m + 1) / 10)).length with hL
      have h48 : 48 + (m + 1) % 10 - 48 = (m + 1) % 10 := by omega
      rw [h48]
      calc (a * 10 ^ L + (m + 1) / 10) * 10 + (m + 1) % 10
          = a * (10 ^ L * 10) + ((m + 1) / 10 * 10 + (m + 1) % 10) := by ring
        _ = a * 10 ^ (L + 1) + (m + 1) := by rw [hdm, pow_succ]

/-- The renderer yields a non-empty list on positive input. -/
theorem natCharsAux_ne_nil (fuel n : ℕ) (h1 : 0 < n) (h2 : n ≤ fuel) :
    natCharsAux fuel n ≠ [] := by
  obtain ⟨f, rfl⟩ : ∃ f, fuel = f + 1 := ⟨fuel - 1, by omega⟩
  obtain ⟨m, rfl⟩ : ∃ m, n = m + 1 := ⟨n - 1, by omega⟩
  simp [natCharsAux]

/-- Parsing the decimal rendering of a natural number gives it back. -/
theorem parseDigits_natChars (n : ℕ) : parseDigits (natChars n) = some n := by
  by_cases h : n = 0
  · subst h
    decide
  · unfold natChars
    rw [if_neg h]
    have hne := natCharsAux_ne_nil n n (by omega) le_rfl
    have hall : (natCharsAux n n).all (fun c => c.isDigit) = true := by
      rw [List.all_eq_true]
      intro c hc
      obtain ⟨d, hd, hceq⟩ := natCharsAux_digits n n c hc
      subst hceq
      exact (digitChar_facts d hd).1
    unfold parseDigits
    rw [if_neg hne, if_pos hall, natCharsAux_foldl n n 0 (by omega) le_rfl]
    simp

/-- The rendered characters are never an underscore. -/
theorem natChars_no_underscore (m : ℕ) : '_' ∉ natChars m := by
  intro hmem
  unfold natChars at hmem
  by_cases h : m = 0
  · rw [if_pos h] at hmem
    simp at hmem
  · rw [if_neg h] at hmem
    obtain ⟨d, hd, hc⟩ := natCharsAux_digits m m '_' hmem
    exact (digitChar_facts d hd).2.1 hc.symm

/-- The rendering of an int contains no underscore. -/
theorem intStr_no_underscore (n : ℤ) : '_' ∉ (intStr n).data := by
  unfold intStr
  by_cases h : n < 0
  · rw [if_pos h]
    show '_' ∉ '-' :: natChars n.natAbs
    simp only [List.mem_cons, not_or]
    exact ⟨by decide, natChars_no_underscore _⟩
  · rw [if_neg h]
    exact natChars_no_underscore _

/-- Parsing a list of digit characters ignores the sign branches. -/
theorem parsePyInt_digits (cs : List Char) (hne : cs ≠ [])
    (hd : ∀ c ∈ cs, ∃ d, d < 10 ∧ c = Char.ofNat (48 + d)) :
    parsePyInt cs = (parseDigits cs).map (fun k => Int.ofNat k) := by
  match cs, hne with
  | c :: rest, _ =>
    obtain ⟨d, hdlt, hc⟩ := hd c (List.mem_cons_self _ _)
    have h1 : c ≠ '-' := hc ▸ (digitChar_facts d hdlt).2.2.1
    have h2 : c ≠ '+' := hc ▸ (digitChar_facts d hdlt).2.2.2.1
    simp [parsePyInt, h1, h2]

/-- Parsing the rendering of an integer gives the integer back: the model of
`int(str(n)) == n`. -/
theorem parsePyInt_intStr (n : ℤ) : parsePyInt (intStr n).data = some n := by
  by_cases hz : n = 0
  · subst hz
    decide
  · unfold intStr
    by_cases h : n < 0
    · rw [if_pos h]
      show parsePyInt ('-' :: natChars n.natAbs) = some n
      have hstep : parsePyInt ('-' :: natChars n.natAbs)
          = (parseDigits (natChars n.natAbs)).map (fun k => -(Int.ofNat k)) := by
        simp [parsePyInt]
      rw [hstep, parseDigits_natChars]
      simp only [Int.ofNat_eq_natCast, Option.map_some', Option.some.injEq]
      omega
    · rw [if_neg h]
      show parsePyInt (natChars n.toNat) = some n
      have hpos : n.toNat ≠ 0 := by omega
      have hne : natChars n.toNat ≠ [] := by
        unfold natChars
        rw [if_neg hpos]
        exact natCharsAux_ne_nil _ _ (by omega) le_rfl
      have hdig : ∀ c ∈ natChars n.toNat, ∃ d, d < 10 ∧ c = Char.ofNat (48 + d) := by
        intro c hc
        unfold natChars at hc
        rw [if_neg hpos] at hc
        exact natCharsAux_digits _ _ c hc
      rw [parsePyInt_digits _ hne hdig, parseDigits_natChars]
      simp only [Int.ofNat_eq_natCast, Option.map_some', Option.some.injEq]
      omega

/-- Splitting a list without underscores yields the single segment. -/
theorem splitU_no_underscore (l : List Char) (h : '_' ∉ l) : splitU l = [l] := by
  induction l with
  | nil => rfl
  | cons c cs ih =>
    simp only [List.mem_cons, not_or] at h
    have hc : ¬ c = '_' := fun he => h.1 he.symm
    simp only [splitU, ih h.2, if_neg hc]

/-- Splitting an underscore-free chunk followed by an underscore peels off
the chunk as the first segment. -/
theorem splitU_chunk_underscore (p rest : List Char) (h : '_' ∉ p) :
    splitU (p ++ '_' :: rest) = p :: splitU rest := by
  induction p with
  | nil =>
    simp [splitU]
  | cons c cs ih =>
    simp only [List.mem_cons, not_or] at h
    have hc : ¬ c = '_' := fun he => h.1 he.symm
    rw [List.cons_append]
    simp only [splitU, ih h.2, if_neg hc]

/-- Characters of the generated ID. -/
theorem data_generated (n : ℤ) :
    ("Product_" ++ intStr n).data
      = ['P', 'r', 'o', 'd', 'u', 'c', 't'] ++ '_' :: (intStr n).data := by
  rw [String.data_append]
  rfl

/-- The numeric suffix read back from a generated ID is the rendered value. -/
theorem suffixValue_generated (n : ℤ) :
    suffixValue ("Product_" ++ intStr n) = some n := by
  unfold suffixValue
  rw [data_generated, splitU_chunk_underscore _ _ (by decide),
    splitU_no_underscore _ (intStr_no_underscore n)]
  exact parsePyInt_intStr n

/-- Every underscore-bearing ID contributes its parsed suffix to the
collected list. -/
theorem collectSuffixes_mem (ids : List String) (vals : List ℤ)
    (h : collectSuffixes ids = some vals) (s : String) (hs : s ∈ ids)
    (hu : '_' ∈ s.data) :
    ∃ v, suffixValue s = some v ∧ v ∈ vals := by
  induction ids generalizing vals with
  | nil => simp at hs
  | cons t rest ih =>
    by_cases ht : '_' ∈ t.data
    · rw [collectSuffixes, if_pos ht] at h
      rcases hsv : suffixValue t with _ | v <;> rw [hsv] at h
      · simp at h
      · rcases hcr : collectSuffixes rest with _ | vs <;> rw [hcr] at h
        · simp at h
        · simp only [Option.some.injEq] at h
          subst h
          rcases List.mem_cons.mp hs with rfl | hrest
          · exact ⟨v, hsv, List.mem_cons_self _ _⟩
          · obtain ⟨w, hw1, hw2⟩ := ih vs hcr hrest
            exact ⟨w, hw1, List.mem_cons_of_mem _ hw2⟩
    · rw [collectSuffixes, if_neg ht] at h
      rcases List.mem_cons.mp hs with rfl | hrest
      · exact absurd hu ht
      · exact ih vals h hrest

/-- The seed of a `foldl max` bounds itself. -/
theorem start_le_foldl_max (us : List ℤ) : ∀ w, w ≤ us.foldl max w := by
  induction us with
  | nil => intro w; exact le_rfl
  | cons u us ih => intro w; exact le_trans (le_max_left w u) (ih (max w u))

/-- Every member of the list is bounded by its running `foldl max`. -/
theorem mem_le_foldl_max (us : List ℤ) : ∀ w v, v ∈ us → v ≤ us.foldl max w := by
  induction us with
  | nil =>
    intro w v h
    simp at h
  | cons u us ih =>
    intro w v h
    rw [List.foldl_cons]
    rcases List.mem_cons.mp h with rfl | h2
    · exact le_trans (le_max_right w v) (start_le_foldl_max us (max w v))
    · exact ih (max w u) v h2

/-- `maxList` bounds every member. -/
theorem mem_le_maxList (vals : List ℤ) (v : ℤ) (hv : v ∈ vals) : v ≤ maxList vals := by
  cases vals with
  | nil => simp at hv
  | cons w ws =>
    rw [maxList]
    rcases List.mem_cons.mp hv with rfl | h
    · exact start_le_foldl_max ws v
    · exact mem_le_foldl_max ws w v h

/-- C9: the generated ID is `Product_` followed by one plus the maximum
numeric suffix of the underscore-bearing IDs (1 when none exist), and it
differs from every Product_ID already in the catalog. -/
theorem nextProductId_spec (ids : List String) (g : String) (vals : List ℤ) :
    (collectSuffixes ids = some vals →
      nextProductId ids
        = some ("Product_" ++ intStr (if vals = [] then 1 else maxList vals + 1))) ∧
    (nextProductId ids = some g → g ∉ ids) := by
  constructor
  · intro h
    rw [nextProductId, h]
  · intro h hmem
    rw [nextProductId] at h
    rcases hcs : collectSuffixes ids with _ | vals' <;> rw [hcs] at h
    · exact absurd h (by simp)
    · simp only [Option.some.injEq] at h
      have hg : '_' ∈ g.data := by
        rw [← h, data_generated]
        simp
      obtain ⟨v, hv1, hv2⟩ := collectSuffixes_mem ids vals' hcs g hmem hg
      rw [← h, suffixValue_generated] at hv1
      have hnext : (if vals' = [] then (1 : ℤ) else maxList vals' + 1) = v :=
        Option.some.inj hv1
      by_cases hvnil : vals' = []
      · subst hvnil
        simp at hv2
      · rw [if_neg hvnil] at hnext
        have hle := mem_le_maxList vals' v hv2
        omega

/-- Witness for C9: on the catalog IDs `[Product_1]` the suffixes collect to
`[1]`, the generated ID is `Product_2`, and it is fresh. -/
theorem nextProductId_spec_witness :
    nextProductId ["Product_1"]
      = some ("Product_"
          ++ intStr (if ([(1 : ℤ)] : List ℤ) = [] then 1 else maxList [(1 : ℤ)] + 1)) ∧
    "Product_2" ∉ ["Product_1"] :=
  ⟨(nextProductId_spec ["Product_1"] "Product_2" [(1 : ℤ)]).1 (by decide),
   (nextProductId_spec ["Product_1"] "Product_2" [(1 : ℤ)]).2 (by decide)⟩
